import Mathlib

/-!
Shallow embedding of `alphapept/chem.py` (isotope-distribution convolution engine).

Conventions of the embedding:
* `float32` / `float64` arithmetic is modelled exactly over `ℚ`.
* numpy arrays are modelled as `List ℚ`; a missing index reads the default `0`
  only in positions the source never reaches with a valid index.
* The pruning `while` loop of `fast_add` has no lower bound in the source: when
  every entry of the raw convolution is below the prune level, the loop
  decrements `dm0` past every valid index (in numba this is an unguarded
  out-of-bounds read, in numpy an eventual IndexError after wrap-around; no
  typed error is raised).  The embedding models that escape from the valid
  index range as `none`; `some` is the value actually returned by the source.
* The external constants module (`averagine_avg`, `mass_dict`, `isotopes`,
  `averagine_aa`) is out of scope per the spec; its read-only tables are passed
  as explicit arguments.
-/

/-- Default value of the `PRUNE_LEVEL` parameter of `fast_add` (`0.000001`).
The repository never overrides it, so the embedding fixes it. -/
def PRUNE_LEVEL : ℚ := 1 / 1000000

/-- Maximum element of a list of rationals; `np.max` of a nonempty array.
The `[]` case is never reached by the source (`np.max` of an empty array errors). -/
def listMax : List ℚ → ℚ
  | [] => 0
  | [x] => x
  | x :: y :: xs => max x (listMax (y :: xs))

/-- Raw convolution buffer of `fast_add`:
`ni = np.zeros(dm0 + dm1 - 1)`, then `ni[i+j] += int0[i] * int1[j]`
for `i < dm0`, `j < dm1`. -/
def convRaw (dm0 : ℕ) (int0 : List ℚ) (dm1 : ℕ) (int1 : List ℚ) : List ℚ :=
  (List.range (dm0 + dm1 - 1)).map fun k =>
    ((List.range dm0).map fun i =>
      ((List.range dm1).map fun j =>
        if i + j = k then int0.getD i 0 * int1.getD j 0 else 0).sum).sum

/-- The pruning loop of `fast_add`: `while ni[dm0 - 1] < PRUNE_LEVEL: dm0 -= 1`.
The second argument is the current value of `dm0`.  Reaching `0` means the next
iteration would read `ni[-1]`: the unguarded underflow, modelled as `none`. -/
def pruneFrom (ni : List ℚ) : ℕ → Option ℕ
  | 0 => none
  | d + 1 => if ni.getD d 0 < PRUNE_LEVEL then pruneFrom ni d else some (d + 1)

/-- Convolute two isotope distributions (`fast_add` in `chem.py`):
add the offsets, convolve the intensity patterns, normalize by the maximum of
the raw convolution, and prune trailing entries by comparing the RAW values
against `PRUNE_LEVEL`. -/
def fast_add (m0 : ℚ) (dm0 : ℕ) (int0 : List ℚ) (m1 : ℚ) (dm1 : ℕ) (int1 : List ℚ) :
    Option (ℚ × ℕ × List ℚ) :=
  let ni := convRaw dm0 int0 dm1 int1
  Option.map (fun d => (m0 + m1, d, ni.map fun v => v / listMax ni))
    (pruneFrom ni (dm0 + dm1 - 1))

/-- Value-level model of the `IsotopeDistribution` jitclass: mono-isotopic mass
`m0`, number of significant isotopes `dm`, intensity pattern `intensities`.
Buffer aliasing of the numpy array is modelled separately by `HeapEnv`. -/
structure IsotopeDistribution where
  m0 : ℚ
  dm : ℕ
  intensities : List ℚ
deriving DecidableEq

/-- `IsotopeDistribution.__init__`: the identity envelope. -/
def identityDist : IsotopeDistribution := ⟨0, 1, [1]⟩

/-- `IsotopeDistribution.add`: convolute `self` with `x` via `fast_add`. -/
def IsotopeDistribution.add (self x : IsotopeDistribution) : Option IsotopeDistribution :=
  Option.map (fun r => ⟨r.1, r.2.1, r.2.2⟩)
    (fast_add self.m0 self.dm self.intensities x.m0 x.dm x.intensities)

/-- Value-level `IsotopeDistribution.copy`: the copy carries the same field
values.  (At the reference level the source aliases the intensities buffer;
see `copyHeapEnv`.) -/
def IsotopeDistribution.copy (self : IsotopeDistribution) : IsotopeDistribution := self

/-- Body of the `while decimal != 0` loop of `numba_bin`, with explicit fuel.
Each iteration prepends `decimal % 2` (Python floor-mod, `Int.emod`) and
replaces `decimal` by `int(decimal / 2)` (truncation toward zero, `Int.tdiv`). -/
def numba_bin_loop : ℕ → ℤ → List ℤ
  | 0, _ => []
  | fuel + 1, decimal =>
    if decimal = 0 then []
    else numba_bin_loop fuel (Int.tdiv decimal 2) ++ [Int.emod decimal 2]

/-- `numba_bin`: convert a decimal to its list of binary digits, most
significant first.  `natAbs + 1` units of fuel dominate the iteration count of
the halving loop. -/
def numba_bin (decimal : ℤ) : List ℤ := numba_bin_loop (decimal.natAbs + 1) decimal

/-- Value of a least-significant-first bit list, counting a bit as set exactly
when it equals `1` (the comparison `count == 1` used by `mult`). -/
def bitsVal : List ℤ → ℤ
  | [] => 0
  | b :: rest => (if b = 1 then 1 else 0) + 2 * bitsVal rest

/-- The `for count in binary[::-1]` loop of `IsotopeDistribution.mult`:
`i` is the accumulator, `multiples` the running square. -/
def multLoop : List ℤ → IsotopeDistribution → IsotopeDistribution → Option IsotopeDistribution
  | [], i, _ => some i
  | count :: rest, i, multiples =>
    match (if count = 1 then i.add multiples else some i) with
    | none => none
    | some i2 =>
      match multiples.add multiples with
      | none => none
      | some m2 => multLoop rest i2 m2

/-- `IsotopeDistribution.mult`: convolute `self` with itself `n` times via
binary exponentiation over `numba_bin n`; `n == 1` returns a direct copy. -/
def IsotopeDistribution.mult (self : IsotopeDistribution) (n : ℤ) : Option IsotopeDistribution :=
  if n = 1 then some self.copy
  else multLoop (numba_bin n).reverse identityDist self.copy

/-- Naive exponentiation path described by the spec: `k` further `add` calls. -/
def naiveMultAux : ℕ → IsotopeDistribution → IsotopeDistribution → Option IsotopeDistribution
  | 0, acc, _ => some acc
  | k + 1, acc, x =>
    match acc.add x with
    | none => none
    | some acc2 => naiveMultAux k acc2 x

/-- Naive exponentiation path described by the spec: start from a copy of `e`
and apply `add` with `e` exactly `n - 1` times. -/
def naiveMult (e : IsotopeDistribution) (n : ℤ) : Option IsotopeDistribution :=
  naiveMultAux (n - 1).toNat e.copy e

/-- Body of the `for AA in counted_AA.keys()` loop of `dict_to_dist`:
`x = IsotopeDistribution(); x.add(isotopes[AA]); x = x.mult(counted_AA[AA]);
dist.add(x)`. -/
def dictToDistLoop (isotopes : String → IsotopeDistribution) :
    List (String × ℤ) → IsotopeDistribution → Option IsotopeDistribution
  | [], dist => some dist
  | (aa, cnt) :: rest, dist =>
    match identityDist.add (isotopes aa) with
    | none => none
    | some x1 =>
      match x1.mult cnt with
      | none => none
      | some x2 =>
        match dist.add x2 with
        | none => none
        | some dist2 => dictToDistLoop isotopes rest dist2

/-- `dict_to_dist`: fold a per-element atom-count mapping into one envelope.
The numba typed `Dict` is modelled as an association list (iteration order is
the key order); the isotope table as a total lookup function. -/
def dict_to_dist (counted_AA : List (String × ℤ))
    (isotopes : String → IsotopeDistribution) : Option IsotopeDistribution :=
  dictToDistLoop isotopes counted_AA identityDist

/-- Error raised by `get_average_formula` when `sulphur=False`
(`NotImplementedError` in the source; `UnsupportedMode` in the spec). -/
inductive ChemError
  | unsupportedMode
deriving DecidableEq

/-- `int(np.round(x))`: round to the nearest integer, ties to even
(NumPy banker rounding). -/
def npRound (x : ℚ) : ℤ :=
  let f := Int.floor x
  if x - f < 1 / 2 then f
  else if 1 / 2 < x - f then f + 1
  else if Even f then f else f + 1

/-- Total mono-isotopic mass of an elemental composition:
the running `final_mass` sum of `get_average_formula`, `Σ count * isotopes[AA].m0`. -/
def totalMonoMass (counted : List (String × ℤ)) (isotopes : String → IsotopeDistribution) : ℚ :=
  (counted.map fun p => (p.2 : ℚ) * (isotopes p.1).m0).sum

/-- `get_average_formula`: estimate the averagine elemental composition of a
molecule mass.  `averagine_avg` is the external constant
`alphapept.constants.averagine_avg`, passed explicitly.  The source mutates
`counted_AA["H"]` in place; the embedding applies the hydrogen correction to
every `"H"` entry of the association list (the source table has one). -/
def get_average_formula (molecule_mass : ℚ) (averagine_aa : List (String × ℚ))
    (isotopes : String → IsotopeDistribution) (averagine_avg : ℚ) (sulphur : Bool) :
    Except ChemError (List (String × ℤ)) :=
  if sulphur then
    let averagine_units := molecule_mass / averagine_avg
    let counted_AA := averagine_aa.map fun p => (p.1, npRound (averagine_units * p.2))
    let final_mass := totalMonoMass counted_AA isotopes
    let h_correction := npRound ((molecule_mass - final_mass) / (isotopes "H").m0)
    Except.ok (counted_AA.map fun p => if p.1 = "H" then (p.1, p.2 + h_correction) else p)
  else
    Except.error ChemError.unsupportedMode

/-- `mass_to_dist`: averagine estimation, then composition-to-envelope
conversion; the returned masses are `dist.m0 + i` for `i` ranging over
`len(dist.intensities)` — the full storage, not `dist.dm`. -/
def mass_to_dist (molecule_mass : ℚ) (averagine_aa : List (String × ℚ))
    (isotopes : String → IsotopeDistribution) (averagine_avg : ℚ) :
    Option (List ℚ × List ℚ) :=
  match get_average_formula molecule_mass averagine_aa isotopes averagine_avg true with
  | Except.error _ => none
  | Except.ok counted_AA =>
    Option.map (fun dist =>
      ((List.range dist.intensities.length).map fun i => dist.m0 + (i : ℚ),
        dist.intensities))
      (dict_to_dist counted_AA isotopes)

/-- `calculate_mass`: precursor mass from mono m/z and charge.  `M_PROTON` is
the external constant `mass_dict['Proton']`, passed explicitly. -/
def calculate_mass (mono_mz : ℚ) (charge : ℤ) (M_PROTON : ℚ) : ℚ :=
  mono_mz * |(charge : ℚ)| - (charge : ℚ) * M_PROTON

/-- The peak-count scan exactly as claim C1 words it (contrast definition, not
from the source): trailing entries are discarded by comparing the NORMALIZED
intensities — each raw entry divided by the maximum of the raw convolution —
against the prune threshold.  The source (`fast_add`) compares the raw values. -/
def claimNormalizedPeakCount (dm0 : ℕ) (int0 : List ℚ) (dm1 : ℕ) (int1 : List ℚ) : Option ℕ :=
  let ni := convRaw dm0 int0 dm1 int1
  pruneFrom (ni.map fun v => v / listMax ni) (dm0 + dm1 - 1)

/-- Reference-level model of a jitclass instance for the aliasing claim: the
`intensities` field holds the index of its backing buffer inside a heap of
numpy arrays. -/
structure HeapEnv where
  m0 : ℚ
  dm : ℕ
  intensities : ℕ
deriving DecidableEq

/-- `IsotopeDistribution()` at the reference level: allocates a fresh `[1.0]`
buffer at the end of the heap. -/
def initHeapEnv (heap : List (List ℚ)) : HeapEnv × List (List ℚ) :=
  (⟨0, 1, heap.length⟩, heap ++ [[1]])

/-- `IsotopeDistribution.copy` at the reference level:
`i = IsotopeDistribution()` allocates a fresh buffer, then `i.m0 = self.m0`,
`i.dm = self.dm`, and `i.intensities = self.intensities` — the last assignment
copies the array REFERENCE, not the data, so the returned instance points at
`self`'s buffer and the fresh `[1.0]` buffer is left unreferenced. -/
def copyHeapEnv (self : HeapEnv) (heap : List (List ℚ)) : HeapEnv × List (List ℚ) :=
  let ih := initHeapEnv heap
  (⟨self.m0, self.dm, self.intensities⟩, ih.2)

/-- Concrete averagine ratio table used to instantiate the `mass_to_dist`
claims: two elements with unit ratio. -/
def aaTwoElem : List (String × ℚ) := [("A", 1), ("H", 1)]

/-- Concrete isotope table used to instantiate the `mass_to_dist` claims:
each element has two isotopes with a small second intensity `9/10000`. -/
def isoTwoElem : String → IsotopeDistribution :=
  fun s => if s = "A" then ⟨0, 2, [1, 9 / 10000]⟩ else ⟨1, 2, [1, 9 / 10000]⟩

/-- Concrete envelope separating `mult` from the naive path: trailing
intensity `3/2500`, whose self-convolution square `9/6250000` sits between
`PRUNE_LEVEL` and `2 * PRUNE_LEVEL`. -/
def envC3 : IsotopeDistribution := ⟨0, 3, [1, 1, 3 / 2500]⟩

-- ===================== theorems =====================

theorem listMax_mem : ∀ l : List ℚ, l ≠ [] → listMax l ∈ l := by
  intro l
  induction l with
  | nil => intro h; exact absurd rfl h
  | cons x xs ih =>
    intro _
    cases xs with
    | nil => simp [listMax]
    | cons y ys =>
      rcases max_choice x (listMax (y :: ys)) with h | h
      · simp [listMax, h]
      · have := ih (by simp)
        simp only [listMax, h]
        exact List.mem_cons_of_mem x this

theorem le_listMax : ∀ l : List ℚ, ∀ a ∈ l, a ≤ listMax l := by
  intro l
  induction l with
  | nil => intro a ha; simp at ha
  | cons x xs ih =>
    intro a ha
    cases xs with
    | nil =>
      simp at ha
      simp [listMax, ha]
    | cons y ys =>
      rcases List.mem_cons.mp ha with h | h
      · simp [listMax, h]
      · exact le_trans (ih a h) (by simp [listMax])

theorem listMax_map_div (l : List ℚ) (M : ℚ) (hM : 0 < M) :
    listMax (l.map fun v => v / M) = listMax l / M := by
  induction l with
  | nil => simp [listMax]
  | cons x xs ih =>
    cases xs with
    | nil => simp [listMax]
    | cons y ys =>
      simp only [List.map_cons] at ih ⊢
      rw [listMax, listMax, ih, max_div_div_right hM.le]

theorem convRaw_length (dm0 : ℕ) (int0 : List ℚ) (dm1 : ℕ) (int1 : List ℚ) :
    (convRaw dm0 int0 dm1 int1).length = dm0 + dm1 - 1 := by
  simp [convRaw]

theorem pruneFrom_char (ni : List ℚ) :
    ∀ n d, pruneFrom ni n = some d →
      1 ≤ d ∧ d ≤ n ∧ PRUNE_LEVEL ≤ ni.getD (d - 1) 0 ∧
        ∀ k, d ≤ k → k < n → ni.getD k 0 < PRUNE_LEVEL := by
  intro n
  induction n with
  | zero => intro d h; simp [pruneFrom] at h
  | succ m ih =>
    intro d h
    simp only [pruneFrom] at h
    by_cases hc : ni.getD m 0 < PRUNE_LEVEL
    · rw [if_pos hc] at h
      obtain ⟨h1, h2, h3, h4⟩ := ih d h
      refine ⟨h1, le_trans h2 (Nat.le_succ m), h3, ?_⟩
      intro k hk1 hk2
      rcases Nat.lt_succ_iff_lt_or_eq.mp hk2 with h | h
      · exact h4 k hk1 h
      · rw [h]; exact hc
    · rw [if_neg hc] at h
      obtain rfl : m + 1 = d := by simpa using h
      refine ⟨Nat.succ_le_succ (Nat.zero_le m), le_refl _, ?_, ?_⟩
      · simpa using not_lt.mp hc
      · intro k hk1 hk2; omega

theorem fast_add_elim {m0 : ℚ} {dm0 : ℕ} {int0 : List ℚ} {m1 : ℚ} {dm1 : ℕ} {int1 : List ℚ}
    {m : ℚ} {d : ℕ} {l : List ℚ}
    (h : fast_add m0 dm0 int0 m1 dm1 int1 = some (m, d, l)) :
    pruneFrom (convRaw dm0 int0 dm1 int1) (dm0 + dm1 - 1) = some d ∧
      m = m0 + m1 ∧
      l = (convRaw dm0 int0 dm1 int1).map
            fun v => v / listMax (convRaw dm0 int0 dm1 int1) := by
  simp only [fast_add] at h
  obtain ⟨a, ha, hb⟩ := Option.map_eq_some'.mp h
  injection hb with hm htail
  injection htail with hd hl
  exact ⟨hd ▸ ha, hm.symm, hl.symm⟩

/-- C1, amended: `fast_add` determines the final `peak_count` by scanning
downward from index `dm0 + dm1 - 2` of the RAW convolution (not the normalized
one): trailing entries whose raw value is strictly below `PRUNE_LEVEL` are
discarded, and the scan stops at the first (highest-index) raw entry at or
above the threshold. -/
theorem C1_pruning_scans_raw (m0 : ℚ) (dm0 : ℕ) (int0 : List ℚ) (m1 : ℚ) (dm1 : ℕ)
    (int1 : List ℚ) (m : ℚ) (d : ℕ) (l : List ℚ)
    (h : fast_add m0 dm0 int0 m1 dm1 int1 = some (m, d, l)) :
    1 ≤ d ∧ d ≤ dm0 + dm1 - 1 ∧
      PRUNE_LEVEL ≤ (convRaw dm0 int0 dm1 int1).getD (d - 1) 0 ∧
      ∀ k, d ≤ k → (convRaw dm0 int0 dm1 int1).getD k 0 < PRUNE_LEVEL := by
  obtain ⟨hp, -, -⟩ := fast_add_elim h
  obtain ⟨h1, h2, h3, h4⟩ := pruneFrom_char _ _ _ hp
  refine ⟨h1, h2, h3, ?_⟩
  intro k hk
  by_cases hlen : k < dm0 + dm1 - 1
  · exact h4 k hk hlen
  · have hge : (convRaw dm0 int0 dm1 int1).length ≤ k := by
      rw [convRaw_length]; omega
    rw [List.getD_eq_default _ _ hge]
    norm_num [PRUNE_LEVEL]

/-- C1, counterexample: with normalized envelopes `[1, 1]` and `[1, 10⁻⁶]` the
raw convolution is `[1, 1 + 10⁻⁶, 10⁻⁶]`, whose maximum is `1 + 10⁻⁶`.  The
source keeps the trailing entry (its RAW value `10⁻⁶` is not strictly below the
threshold) and returns `peak_count = 3`, while the scan over NORMALIZED
intensities described by the claim discards it (`10⁻⁶ / (1 + 10⁻⁶) < 10⁻⁶`)
and stops at 2. -/
theorem C1_counterexample :
    Option.map (fun r => r.2.1) (fast_add 0 2 [1, 1] 0 2 [1, 1 / 1000000]) = some 3 ∧
      claimNormalizedPeakCount 2 [1, 1] 2 [1, 1 / 1000000] = some 2 := by
  constructor
  · norm_num [fast_add, convRaw, List.range_succ, pruneFrom, PRUNE_LEVEL, listMax, max_def]
  · norm_num [claimNormalizedPeakCount, convRaw, List.range_succ, pruneFrom, PRUNE_LEVEL,
      listMax, max_def]

/-- Witness for `C1_pruning_scans_raw` at a concrete input. -/
theorem C1_witness :
    fast_add 0 1 [1] 0 1 [1] = some (0, 1, [1]) ∧
      PRUNE_LEVEL ≤ (convRaw 1 [1] 1 [1]).getD 0 0 := by
  have h : fast_add 0 1 [1] 0 1 [1] = some (0, 1, [1]) := by
    norm_num [fast_add, convRaw, List.range_succ, pruneFrom, PRUNE_LEVEL, listMax]
  exact ⟨h, (C1_pruning_scans_raw 0 1 [1] 0 1 [1] 0 1 [1] h).2.2.1⟩

/-- C4: on an all-zero convolution (`[0] ⊛ [0]`) the pruning loop of
`fast_add` never meets its exit condition and decrements `dm0` past every
valid index — the unguarded underflow, `none` in the embedding.  No
`DegenerateConvolution`-style error is surfaced, contrary to the claim. -/
theorem C4_degenerate_underflow (m0 m1 : ℚ) :
    fast_add m0 1 [0] m1 1 [0] = none := by
  norm_num [fast_add, convRaw, List.range_succ, pruneFrom, PRUNE_LEVEL, listMax]

/-- C6: after every successful convolution the returned intensity vector is
normalized so that the maximum of its first `peak_count` entries equals 1
exactly; the identity envelope satisfies the same invariant and `copy`
preserves envelopes unchanged. -/
theorem C6_normalization (m0 : ℚ) (dm0 : ℕ) (int0 : List ℚ) (m1 : ℚ) (dm1 : ℕ)
    (int1 : List ℚ) (m : ℚ) (d : ℕ) (l : List ℚ)
    (h : fast_add m0 dm0 int0 m1 dm1 int1 = some (m, d, l)) :
    listMax (l.take d) = 1 ∧
      listMax (identityDist.intensities.take identityDist.dm) = 1 ∧
      ∀ E : IsotopeDistribution, E.copy = E := by
  refine ⟨?_, by norm_num [identityDist, listMax], fun E => rfl⟩
  obtain ⟨hp, -, hl⟩ := fast_add_elim h
  set ni := convRaw dm0 int0 dm1 int1 with hni
  obtain ⟨h1, h2, h3, h4⟩ := pruneFrom_char _ _ _ hp
  have hlen : ni.length = dm0 + dm1 - 1 := convRaw_length _ _ _ _
  have hdlen : d ≤ ni.length := by omega
  have hidx : d - 1 < ni.length := by omega
  have hgd : ni.getD (d - 1) 0 = ni[d - 1] := List.getD_eq_getElem ni 0 hidx
  have hdM : ni[d - 1] ≤ listMax ni := le_listMax ni _ (List.getElem_mem hidx)
  have hnil : ni ≠ [] := by
    intro hn
    rw [hn] at hlen
    simp only [List.length_nil] at hlen
    omega
  have hMpos : 0 < listMax ni := by
    have hP : (0 : ℚ) < PRUNE_LEVEL := by norm_num [PRUNE_LEVEL]
    rw [hgd] at h3
    linarith
  have htlen : (ni.take d).length = d := by rw [List.length_take]; omega
  have htne : ni.take d ≠ [] := by
    intro hn
    rw [hn] at htlen
    simp only [List.length_nil] at htlen
    omega
  have hle : listMax (ni.take d) ≤ listMax ni :=
    le_listMax ni _ (List.take_subset d ni (listMax_mem _ htne))
  have hge : listMax ni ≤ listMax (ni.take d) := by
    obtain ⟨j, hj, hjM⟩ := List.mem_iff_getElem.mp (listMax_mem ni hnil)
    by_cases hjd : j < d
    · have hjt : j < (ni.take d).length := by omega
      have hjtake : (ni.take d)[j] = ni[j] := List.getElem_take ni
      rw [← hjM, ← hjtake]
      exact le_listMax _ _ (List.getElem_mem hjt)
    · exfalso
      have hk : ni.getD j 0 < PRUNE_LEVEL := h4 j (by omega) (by omega)
      rw [List.getD_eq_getElem ni 0 hj, hjM] at hk
      rw [hgd] at h3
      linarith
  have hpre : listMax (ni.take d) = listMax ni := le_antisymm hle hge
  rw [hl, ← List.map_take, listMax_map_div _ _ hMpos, hpre,
    div_self (ne_of_gt hMpos)]

/-- Witness for `C6_normalization` at a concrete input. -/
theorem C6_witness :
    fast_add 0 1 [1] 0 2 [1, 1 / 2] = some (0, 2, [1, 1 / 2]) ∧
      listMax (([1, 1 / 2] : List ℚ).take 2) = 1 := by
  have h : fast_add 0 1 [1] 0 2 [1, 1 / 2] = some (0, 2, [1, 1 / 2]) := by
    norm_num [fast_add, convRaw, List.range_succ, pruneFrom, PRUNE_LEVEL, listMax, max_def]
  exact ⟨h, (C6_normalization 0 1 [1] 0 2 [1, 1 / 2] 0 2 [1, 1 / 2] h).1⟩

theorem add_m0 {a b c : IsotopeDistribution} (h : a.add b = some c) :
    c.m0 = a.m0 + b.m0 := by
  simp only [IsotopeDistribution.add] at h
  obtain ⟨⟨rm, rd, rl⟩, hr, hc⟩ := Option.map_eq_some'.mp h
  obtain ⟨-, hm, -⟩ := fast_add_elim hr
  rw [← hc]
  exact hm

theorem multLoop_cons_elim {b : ℤ} {rest : List ℤ} {i mlt r : IsotopeDistribution}
    (h : multLoop (b :: rest) i mlt = some r) :
    ∃ i2 m2, (if b = 1 then i.add mlt else some i) = some i2 ∧
      mlt.add mlt = some m2 ∧ multLoop rest i2 m2 = some r := by
  simp only [multLoop] at h
  rcases hstep : (if b = 1 then i.add mlt else some i) with _ | i2 <;> rw [hstep] at h
  · exact absurd h (by simp)
  · rcases hsq : mlt.add mlt with _ | m2 <;> rw [hsq] at h
    · exact absurd h (by simp)
    · exact ⟨i2, m2, rfl, rfl, h⟩

theorem multLoop_m0 :
    ∀ (bits : List ℤ) (i mlt r : IsotopeDistribution),
      multLoop bits i mlt = some r →
      r.m0 = i.m0 + (bitsVal bits : ℚ) * mlt.m0 := by
  intro bits
  induction bits with
  | nil =>
    intro i mlt r h
    simp only [multLoop, Option.some.injEq] at h
    rw [← h]
    simp [bitsVal]
  | cons b rest ih =>
    intro i mlt r h
    obtain ⟨i2, m2, hstep, hsq, hrest⟩ := multLoop_cons_elim h
    have hr := ih i2 m2 r hrest
    have hm2 : m2.m0 = mlt.m0 + mlt.m0 := add_m0 hsq
    by_cases hb : b = 1
    · rw [if_pos hb] at hstep
      have hi2 : i2.m0 = i.m0 + mlt.m0 := add_m0 hstep
      rw [hr, hi2, hm2]
      simp only [bitsVal, if_pos hb]
      push_cast
      ring
    · rw [if_neg hb] at hstep
      obtain rfl : i = i2 := by simpa using hstep
      rw [hr, hm2]
      simp only [bitsVal, if_neg hb]
      push_cast
      ring

theorem naiveMultAux_m0 :
    ∀ (k : ℕ) (acc x r : IsotopeDistribution), naiveMultAux k acc x = some r →
      r.m0 = acc.m0 + (k : ℚ) * x.m0 := by
  intro k
  induction k with
  | zero =>
    intro acc x r h
    simp only [naiveMultAux, Option.some.injEq] at h
    rw [← h]
    simp
  | succ m ih =>
    intro acc x r h
    simp only [naiveMultAux] at h
    rcases hstep : acc.add x with _ | acc2 <;> rw [hstep] at h
    · exact absurd h (by simp)
    · have hr := ih acc2 x r h
      have h2 := add_m0 hstep
      rw [hr, h2]
      push_cast
      ring

theorem mult_m0 {E rm : IsotopeDistribution} {n : ℤ} (h : E.mult n = some rm)
    (hval : bitsVal ((numba_bin n).reverse) = n) :
    rm.m0 = (n : ℚ) * E.m0 := by
  by_cases h1 : n = 1
  · subst h1
    have hE : E.mult 1 = some E := rfl
    rw [hE, Option.some.injEq] at h
    rw [← h]
    push_cast
    ring
  · simp only [IsotopeDistribution.mult, if_neg h1] at h
    have hm := multLoop_m0 _ _ _ _ h
    rw [hm, hval]
    simp [identityDist, IsotopeDistribution.copy]

theorem naiveMult_m0 {E rn : IsotopeDistribution} {n : ℤ} (hn1 : 1 ≤ n)
    (h : naiveMult E n = some rn) : rn.m0 = (n : ℚ) * E.m0 := by
  simp only [naiveMult] at h
  have hr := naiveMultAux_m0 _ _ _ _ h
  have hcast : (((n - 1).toNat : ℕ) : ℚ) = (n : ℚ) - 1 := by
    have h2 : (((n - 1).toNat : ℕ) : ℤ) = n - 1 := Int.toNat_of_nonneg (by omega)
    rw [← Int.cast_natCast, h2]
    push_cast
    ring
  rw [hr, hcast, IsotopeDistribution.copy]
  ring

/-- C3, amended: the binary-exponentiation path `E.mult n` and the naive
path of `n - 1` sequential `add` calls agree exactly when `n = 1`, and for
every `n` in `1..8` both paths multiply the mono-isotopic offset by `n`
(whenever they return a value).  Full agreement of `peak_count` fails for
`n ≥ 2` (see the counterexample): the `mult` accumulator's final convolution
re-prunes against already-normalized values, so it can discard trailing peaks
that the naive path keeps. -/
theorem C3_exponentiation (E rm rn : IsotopeDistribution) (n : ℤ)
    (h1 : 1 ≤ n) (h8 : n ≤ 8)
    (hm : E.mult n = some rm) (hn : naiveMult E n = some rn) :
    rm.m0 = (n : ℚ) * E.m0 ∧ rn.m0 = (n : ℚ) * E.m0 ∧ (n = 1 → rm = rn) := by
  have hval : bitsVal ((numba_bin n).reverse) = n := by
    interval_cases n <;> decide
  refine ⟨mult_m0 hm hval, naiveMult_m0 h1 hn, ?_⟩
  intro hone
  subst hone
  have hE : E.mult 1 = some E := rfl
  rw [hE, Option.some.injEq] at hm
  norm_num [naiveMult, naiveMultAux, IsotopeDistribution.copy] at hn
  rw [← hm, ← hn]

theorem multLoop_cons_one {rest : List ℤ} {i mlt i2 m2 : IsotopeDistribution}
    (hadd : i.add mlt = some i2) (hsq : mlt.add mlt = some m2) :
    multLoop (1 :: rest) i mlt = multLoop rest i2 m2 := by
  rw [multLoop, if_pos rfl, hadd, hsq]

theorem multLoop_cons_notone {b : ℤ} {rest : List ℤ} {i mlt m2 : IsotopeDistribution}
    (hb : ¬b = 1) (hsq : mlt.add mlt = some m2) :
    multLoop (b :: rest) i mlt = multLoop rest i m2 := by
  rw [multLoop, if_neg hb, hsq]

/-- C3, counterexample: for the normalized well-formed envelope
`⟨0, 3, [1, 1, 3/2500]⟩` and `n = 2`, the naive path keeps 5 peaks (the raw
trailing convolution value `9/6250000` is above the threshold), while the
`mult` path returns `peak_count = 4`: its final accumulator convolution sees
the normalized values (halved by the maximum 2 of the square), and
`9/12500000 < 10⁻⁶` is pruned.  The two paths disagree on `peak_count`, an
integer, so no floating tolerance reconciles them. -/
theorem C3_counterexample :
    Option.map IsotopeDistribution.dm (envC3.mult 2) = some 4 ∧
      Option.map IsotopeDistribution.dm (naiveMult envC3 2) = some 5 := by
  have hsq : envC3.add envC3 =
      some ⟨0, 5, [1 / 2, 1, 1253 / 2500, 3 / 2500, 9 / 12500000]⟩ := by
    norm_num [IsotopeDistribution.add, fast_add, convRaw, List.range_succ, pruneFrom,
      PRUNE_LEVEL, listMax, max_def, envC3]
  have hid : identityDist.add ⟨0, 5, [1 / 2, 1, 1253 / 2500, 3 / 2500, 9 / 12500000]⟩ =
      some ⟨0, 4, [1 / 2, 1, 1253 / 2500, 3 / 2500, 9 / 12500000]⟩ := by
    norm_num [IsotopeDistribution.add, fast_add, convRaw, List.range_succ, pruneFrom,
      PRUNE_LEVEL, listMax, max_def, identityDist]
  have hsq2 : (⟨0, 5, [1 / 2, 1, 1253 / 2500, 3 / 2500, 9 / 12500000]⟩ :
        IsotopeDistribution).add ⟨0, 5, [1 / 2, 1, 1253 / 2500, 3 / 2500, 9 / 12500000]⟩ =
      some ⟨0, 7, [625 / 3753, 2500 / 3753, 1, 2509 / 3753, 3170027 / 18765000,
        2509 / 3127500, 9 / 6250000, 1 / 868750000, 3 / 8687500000000]⟩ := by
    norm_num [IsotopeDistribution.add, fast_add, convRaw, List.range_succ, pruneFrom,
      PRUNE_LEVEL, listMax, max_def]
  have hbin : (numba_bin 2).reverse = [0, 1] := by decide
  have hmult : envC3.mult 2 =
      some ⟨0, 4, [1 / 2, 1, 1253 / 2500, 3 / 2500, 9 / 12500000]⟩ := by
    rw [IsotopeDistribution.mult, if_neg (by norm_num : ¬((2 : ℤ) = 1)), hbin]
    show multLoop [0, 1] identityDist envC3 = _
    rw [multLoop_cons_notone (by norm_num) hsq, multLoop_cons_one hid hsq2]
    rfl
  have hnaive : naiveMult envC3 2 =
      some ⟨0, 5, [1 / 2, 1, 1253 / 2500, 3 / 2500, 9 / 12500000]⟩ := by
    have h21 : ((2 : ℤ) - 1).toNat = 1 := by norm_num
    rw [naiveMult, h21]
    show naiveMultAux 1 envC3 envC3 = _
    simp only [naiveMultAux, hsq]
  rw [hmult, hnaive]
  exact ⟨rfl, rfl⟩

/-- Witness for `C3_exponentiation` at a concrete input. -/
theorem C3_witness :
    identityDist.mult 2 = some identityDist ∧
      identityDist.m0 = ((2 : ℤ) : ℚ) * identityDist.m0 := by
  have hii : identityDist.add identityDist = some identityDist := by
    norm_num [IsotopeDistribution.add, fast_add, convRaw, List.range_succ, pruneFrom,
      PRUNE_LEVEL, listMax, identityDist]
  have hbin : (numba_bin 2).reverse = [0, 1] := by decide
  have hmult : identityDist.mult 2 = some identityDist := by
    rw [IsotopeDistribution.mult, if_neg (by norm_num : ¬((2 : ℤ) = 1)), hbin]
    show multLoop [0, 1] identityDist identityDist = _
    rw [multLoop_cons_notone (by norm_num) hii, multLoop_cons_one hii hii]
    rfl
  have hnaive : naiveMult identityDist 2 = some identityDist := by
    have h21 : ((2 : ℤ) - 1).toNat = 1 := by norm_num
    rw [naiveMult, h21]
    show naiveMultAux 1 identityDist identityDist = _
    simp only [naiveMultAux, hii]
  exact ⟨hmult,
    (C3_exponentiation identityDist identityDist identityDist 2 (by norm_num)
      (by norm_num) hmult hnaive).1⟩

/-- C5, counterexample: copying the envelope that references buffer 0 of a
one-buffer heap returns an instance whose `intensities` field holds the SAME
buffer index as the original — `i.intensities = self.intensities` copies the
numpy array reference, not the data — refuting the claimed independent
storage. -/
theorem C5_counterexample :
    (copyHeapEnv ⟨5, 2, 0⟩ [[1, 1 / 2]]).1.intensities =
      (⟨5, 2, 0⟩ : HeapEnv).intensities := rfl

/-- C5, amended: `copy` returns an envelope with identical `m0`, `dm` and
intensity values, but its `intensities` field aliases the original's buffer;
the only heap change is a discarded fresh `[1.0]` buffer allocated by the
constructor.  The values observed through the copy equal the original's
because the buffer is shared, and independence is preserved observationally
only because `add` rebinds `intensities` to a new array instead of mutating
in place. -/
theorem C5_copy_aliases (self : HeapEnv) (heap : List (List ℚ)) :
    copyHeapEnv self heap = (⟨self.m0, self.dm, self.intensities⟩, heap ++ [[1]]) := rfl

/-- C8: with `sulphur = false` the averagine estimator fails before computing
anything (`NotImplementedError` in the source, `UnsupportedMode` in the
spec); every input yields the error and no partial composition. -/
theorem C8_unsupported_mode (molecule_mass : ℚ) (averagine_aa : List (String × ℚ))
    (isotopes : String → IsotopeDistribution) (averagine_avg : ℚ) :
    get_average_formula molecule_mass averagine_aa isotopes averagine_avg false =
      Except.error ChemError.unsupportedMode := rfl

/-- C9: `calculate_mass` computes `mono_mz * |charge| - charge * M_PROTON`,
and feeding it the mono m/z derived from a precursor mass through the inverse
formula recovers the precursor mass exactly, for charges 1, 2, 3 and -1. -/
theorem C9_calculate_mass :
    (∀ (mono_mz M_PROTON : ℚ) (charge : ℤ),
        calculate_mass mono_mz charge M_PROTON =
          mono_mz * |(charge : ℚ)| - (charge : ℚ) * M_PROTON) ∧
      (∀ m p : ℚ,
        calculate_mass ((m + 1 * p) / |(1 : ℚ)|) 1 p = m ∧
        calculate_mass ((m + 2 * p) / |(2 : ℚ)|) 2 p = m ∧
        calculate_mass ((m + 3 * p) / |(3 : ℚ)|) 3 p = m ∧
        calculate_mass ((m + (-1) * p) / |(-1 : ℚ)|) (-1) p = m) := by
  refine ⟨fun _ _ _ => rfl, fun m p => ⟨?_, ?_, ?_, ?_⟩⟩ <;>
    · norm_num [calculate_mass]
      try ring

/-- C10: `numba_bin 0` is the empty bit list, so `mult 0` never convolves the
accumulator and returns exactly the identity envelope for every envelope; in
`dict_to_dist` an element with count 0 therefore contributes the identity
envelope (convolved into the running total) instead of failing. -/
theorem C10_mult_zero :
    numba_bin 0 = [] ∧
      (∀ E : IsotopeDistribution, E.mult 0 = some identityDist) ∧
      dict_to_dist [("X", 0)] (fun _ => ⟨1, 2, [1, 1 / 2]⟩) = some identityDist := by
  refine ⟨rfl, fun E => rfl, ?_⟩
  have hx1 : identityDist.add ⟨1, 2, [1, 1 / 2]⟩ = some ⟨1, 2, [1, 1 / 2]⟩ := by
    norm_num [IsotopeDistribution.add, fast_add, convRaw, List.range_succ, pruneFrom,
      PRUNE_LEVEL, listMax, max_def, identityDist]
  have hm0 : (⟨1, 2, [1, 1 / 2]⟩ : IsotopeDistribution).mult 0 = some identityDist := rfl
  have hii : identityDist.add identityDist = some identityDist := by
    norm_num [IsotopeDistribution.add, fast_add, convRaw, List.range_succ, pruneFrom,
      PRUNE_LEVEL, listMax, identityDist]
  simp only [dict_to_dist, dictToDistLoop, hx1, hm0, hii]

/-- C2, amended: `mass_to_dist` emits a mass `dist.m0 + i` for EVERY index `i`
of the underlying intensities storage (`len(dist.intensities)`), not only for
the significant indices `i < peak_count`; the storage can be strictly longer
than `peak_count`, and then masses beyond the significant prefix are emitted
too. -/
theorem C2_masses_over_storage (molecule_mass averagine_avg : ℚ)
    (averagine_aa : List (String × ℚ)) (isotopes : String → IsotopeDistribution)
    (counted : List (String × ℤ)) (dist : IsotopeDistribution)
    (hg : get_average_formula molecule_mass averagine_aa isotopes averagine_avg true =
      Except.ok counted)
    (hd : dict_to_dist counted isotopes = some dist) :
    mass_to_dist molecule_mass averagine_aa isotopes averagine_avg =
      some ((List.range dist.intensities.length).map fun i => dist.m0 + (i : ℚ),
        dist.intensities) := by
  simp only [mass_to_dist, hg, hd, Option.map_some']

theorem C2_eval_formula :
    get_average_formula 1 aaTwoElem isoTwoElem 1 true =
      Except.ok [("A", 1), ("H", 1)] := by
  norm_num [get_average_formula, npRound, totalMonoMass, aaTwoElem, isoTwoElem,
    show ("A" : String) ≠ "H" by decide, show ("H" : String) ≠ "A" by decide]

theorem C2_eval_dist :
    dict_to_dist [("A", 1), ("H", 1)] isoTwoElem =
      some ⟨1, 2, [1, 9 / 5000, 81 / 100000000]⟩ := by
  have hA : identityDist.add (isoTwoElem "A") = some ⟨0, 2, [1, 9 / 10000]⟩ := by
    norm_num [IsotopeDistribution.add, fast_add, convRaw, List.range_succ, pruneFrom,
      PRUNE_LEVEL, listMax, max_def, identityDist, isoTwoElem]
  have hH : identityDist.add (isoTwoElem "H") = some ⟨1, 2, [1, 9 / 10000]⟩ := by
    norm_num [IsotopeDistribution.add, fast_add, convRaw, List.range_succ, pruneFrom,
      PRUNE_LEVEL, listMax, max_def, identityDist, isoTwoElem,
      show ("H" : String) ≠ "A" by decide]
  have hmA : (⟨0, 2, [1, 9 / 10000]⟩ : IsotopeDistribution).mult 1 =
      some ⟨0, 2, [1, 9 / 10000]⟩ := rfl
  have hmH : (⟨1, 2, [1, 9 / 10000]⟩ : IsotopeDistribution).mult 1 =
      some ⟨1, 2, [1, 9 / 10000]⟩ := rfl
  have hidA : identityDist.add ⟨0, 2, [1, 9 / 10000]⟩ = some ⟨0, 2, [1, 9 / 10000]⟩ := by
    norm_num [IsotopeDistribution.add, fast_add, convRaw, List.range_succ, pruneFrom,
      PRUNE_LEVEL, listMax, max_def, identityDist]
  have hAH : (⟨0, 2, [1, 9 / 10000]⟩ : IsotopeDistribution).add ⟨1, 2, [1, 9 / 10000]⟩ =
      some ⟨1, 2, [1, 9 / 5000, 81 / 100000000]⟩ := by
    norm_num [IsotopeDistribution.add, fast_add, convRaw, List.range_succ, pruneFrom,
      PRUNE_LEVEL, listMax, max_def]
  simp only [dict_to_dist, dictToDistLoop, hA, hmA, hidA, hH, hmH, hAH]

/-- C2, counterexample: with the two-element table `isoTwoElem` and mass 1 the
final envelope has `peak_count = 2` but its storage holds 3 entries (the
trailing raw value `81/100000000` was pruned from the count, not the array);
`mass_to_dist` emits 3 mass/intensity pairs, one for a non-significant index,
refuting the claim that a mass is emitted only for `i < peak_count`. -/
theorem C2_counterexample :
    Option.map (fun p => p.1.length) (mass_to_dist 1 aaTwoElem isoTwoElem 1) = some 3 ∧
      Option.map IsotopeDistribution.dm
        (dict_to_dist [("A", 1), ("H", 1)] isoTwoElem) = some 2 := by
  constructor
  · simp only [mass_to_dist, C2_eval_formula, C2_eval_dist, Option.map_some']
    rfl
  · rw [C2_eval_dist]
    rfl

/-- Witness for `C2_masses_over_storage` at the concrete two-element table. -/
theorem C2_witness :
    get_average_formula 1 aaTwoElem isoTwoElem 1 true = Except.ok [("A", 1), ("H", 1)] ∧
      mass_to_dist 1 aaTwoElem isoTwoElem 1 =
        some ((List.range
            (⟨1, 2, [1, 9 / 5000, 81 / 100000000]⟩ :
              IsotopeDistribution).intensities.length).map
            fun i => (⟨1, 2, [1, 9 / 5000, 81 / 100000000]⟩ :
              IsotopeDistribution).m0 + (i : ℚ),
          (⟨1, 2, [1, 9 / 5000, 81 / 100000000]⟩ : IsotopeDistribution).intensities) :=
  ⟨C2_eval_formula,
    C2_masses_over_storage 1 1 aaTwoElem isoTwoElem _ _ C2_eval_formula C2_eval_dist⟩

theorem npRound_half (x : ℚ) : |x - (npRound x : ℚ)| ≤ 1 / 2 := by
  have h0 : ((⌊x⌋ : ℤ) : ℚ) ≤ x := Int.floor_le x
  have h1 : x < (⌊x⌋ : ℚ) + 1 := Int.lt_floor_add_one x
  simp only [npRound]
  split_ifs with hc1 hc2 hc3
  · rw [abs_of_nonneg (by linarith)]
    linarith
  · push_cast
    rw [abs_of_nonpos (by linarith)]
    linarith
  · rw [abs_of_nonneg (by linarith)]
    linarith
  · push_cast
    rw [abs_of_nonpos (by linarith)]
    linarith

theorem totalMonoMass_cons (p : String × ℤ) (rest : List (String × ℤ))
    (isotopes : String → IsotopeDistribution) :
    totalMonoMass (p :: rest) isotopes =
      (p.2 : ℚ) * (isotopes p.1).m0 + totalMonoMass rest isotopes := by
  simp [totalMonoMass]

theorem totalMonoMass_hcorr (isotopes : String → IsotopeDistribution) (k : ℤ) :
    ∀ l : List (String × ℤ),
      totalMonoMass (l.map fun p => if p.1 = "H" then (p.1, p.2 + k) else p) isotopes =
        totalMonoMass l isotopes +
          (((l.map Prod.fst).count "H" : ℕ) : ℚ) * (k : ℚ) * (isotopes "H").m0 := by
  intro l
  induction l with
  | nil => simp [totalMonoMass]
  | cons p rest ih =>
    obtain ⟨a, c⟩ := p
    by_cases ha : a = "H"
    · subst ha
      rw [List.map_cons, List.map_cons, totalMonoMass_cons, ih,
        totalMonoMass_cons, List.count_cons]
      simp only [if_pos rfl, beq_self_eq_true, if_true]
      push_cast
      ring
    · rw [List.map_cons, List.map_cons, totalMonoMass_cons, ih,
        totalMonoMass_cons, List.count_cons]
      have hne : (a == "H") = false := beq_eq_false_iff_ne.mpr ha
      simp only [if_neg ha, hne, Bool.false_eq_true, if_false]
      push_cast
      ring

theorem mapFst_of_pairs (f : String × ℚ → ℤ) (l : List (String × ℚ)) :
    ((l.map fun p => (p.1, f p)).map Prod.fst) = l.map Prod.fst := by
  induction l with
  | nil => rfl
  | cons p r ih => simp [ih]

/-- C7: for every molecule mass and every averagine table containing hydrogen
exactly once (with positive hydrogen mono-isotopic mass), the estimated
composition conserves mass: the sum of `count * monoisotopic_mass(element)`,
including the rounded hydrogen correction, differs from the input mass by at
most one hydrogen mass (in fact by at most half of one). -/
theorem C7_mass_conservation (molecule_mass averagine_avg : ℚ)
    (averagine_aa : List (String × ℚ)) (isotopes : String → IsotopeDistribution)
    (counted : List (String × ℤ))
    (hH : (averagine_aa.map Prod.fst).count "H" = 1)
    (hpos : 0 < (isotopes "H").m0)
    (hok : get_average_formula molecule_mass averagine_aa isotopes averagine_avg true =
      Except.ok counted) :
    |totalMonoMass counted isotopes - molecule_mass| ≤ (isotopes "H").m0 := by
  rw [get_average_formula, if_pos rfl] at hok
  simp only [Except.ok.injEq] at hok
  subst hok
  rw [totalMonoMass_hcorr, mapFst_of_pairs, hH]
  set mH := (isotopes "H").m0 with hmH
  set F := totalMonoMass
    (averagine_aa.map fun p => (p.1, npRound (molecule_mass / averagine_avg * p.2)))
    isotopes with hF
  set q := (molecule_mass - F) / mH with hqdef
  have hq : q * mH = molecule_mass - F := div_mul_cancel₀ _ (ne_of_gt hpos)
  have hb := npRound_half q
  have hrw : F + (1 : ℕ) * (npRound q : ℚ) * mH - molecule_mass =
      ((npRound q : ℚ) - q) * mH := by
    rw [sub_mul, hq]
    ring
  rw [hrw, abs_mul, abs_of_pos hpos]
  have h2 : |(npRound q : ℚ) - q| ≤ 1 / 2 := by
    rw [abs_sub_comm]
    exact hb
  nlinarith [h2, hpos, abs_nonneg ((npRound q : ℚ) - q)]

/-- Witness for `C7_mass_conservation` at a concrete table and mass 1000. -/
theorem C7_witness :
    get_average_formula 1000 [("H", 1)] (fun _ => ⟨1, 1, [1]⟩) 1 true =
      Except.ok [("H", 1000)] ∧
      |totalMonoMass [("H", 1000)] (fun _ => ⟨1, 1, [1]⟩) - 1000| ≤
        ((fun _ => (⟨1, 1, [1]⟩ : IsotopeDistribution)) "H").m0 := by
  have hok : get_average_formula 1000 [("H", 1)] (fun _ => ⟨1, 1, [1]⟩) 1 true =
      Except.ok [("H", 1000)] := by
    norm_num [get_average_formula, npRound, totalMonoMass]
  refine ⟨hok, C7_mass_conservation 1000 1 [("H", 1)] (fun _ => ⟨1, 1, [1]⟩)
    [("H", 1000)] ?_ (by norm_num) hok⟩
  decide
